import Mathlib

/- Shallow embedding of the debt-settlement engine of the trip-expense app:
   the aggregators totalTripCost, expensesByCategory and expensesByParticipant
   and the greedy settlement solver settledPayments from src/App.tsx
   (lines 804-833), over the data model of the types module. Currency amounts
   are embedded as exact rationals; the source's numeric literals 0.005 and
   -0.005 are kept verbatim. JavaScript objects keyed by strings or categories
   become ordered association lists with the object's insertion-order
   semantics (rset / rget), and the stable Array.prototype.sort with a numeric
   comparator becomes a stable insertion sort (sortLe). -/

/-- Fixed category enumeration (ExpenseCategory in the types module). -/
inductive ExpenseCategory where
  | alojamiento
  | actividades
  | comida
  | transporte
  | entradas
  | compras
  | otros
  deriving DecidableEq

/-- CATEGORIES = Object.values(ExpenseCategory) from the constants module. -/
def CATEGORIES : List ExpenseCategory :=
  [.alojamiento, .actividades, .comida, .transporte, .entradas, .compras, .otros]

/-- Expense record (fields of the types module; the optional proof-image and
payment-method fields play no role in any computation embedded here). -/
structure Expense where
  id : String
  tripId : String
  date : String
  amount : ℚ
  category : ExpenseCategory
  description : String
  paidBy : String
  deriving DecidableEq

/-- Participant record of the types module. -/
structure Participant where
  name : String
  deriving DecidableEq

/-- SettledPayment record of the types module. The fields named from and to
in the source are Lean keywords and are rendered from_ and to_. -/
structure SettledPayment where
  from_ : String
  to_ : String
  amount : ℚ
  deriving DecidableEq

/-- Reading obj[k] from a JavaScript object modelled as an ordered
association list: the value at the first (hence only) entry with key k. -/
def rget {κ : Type} [DecidableEq κ] : List (κ × ℚ) → κ → Option ℚ
  | [], _ => none
  | (k, v) :: r, q => if k = q then some v else rget r q

/-- The assignment obj[k] = v: update the first entry holding k in place,
or append a fresh entry at the end (JavaScript property insertion order). -/
def rset {κ : Type} [DecidableEq κ] : List (κ × ℚ) → κ → ℚ → List (κ × ℚ)
  | [], k, v => [(k, v)]
  | (k0, v0) :: r, k, v =>
    if k0 = k then (k0, v) :: r else (k0, v0) :: rset r k v

/-- Object.keys of the modelled object. -/
def rkeys {κ : Type} (r : List (κ × ℚ)) : List κ := r.map Prod.fst

/-- App.tsx totalTripCost: expenses.reduce((sum, exp) => sum + exp.amount, 0). -/
def totalTripCost (expenses : List Expense) : ℚ :=
  expenses.foldl (fun sum exp => sum + exp.amount) 0

/-- App.tsx expensesByCategory: every category of CATEGORIES initialized to
zero, then each expense's amount added to its category's running sum. -/
def expensesByCategory (expenses : List Expense) : List (ExpenseCategory × ℚ) :=
  let byCategory := CATEGORIES.foldl (fun r cat => rset r cat 0) []
  expenses.foldl
    (fun r exp => rset r exp.category ((rget r exp.category).getD 0 + exp.amount))
    byCategory

/-- App.tsx expensesByParticipant: every participant name initialized to zero,
then each expense's amount added under its paidBy key; an unknown paidBy
creates a fresh entry. -/
def expensesByParticipant (expenses : List Expense) (participants : List Participant) :
    List (String × ℚ) :=
  let byParticipant := participants.foldl (fun r p => rset r p.name 0) []
  expenses.foldl
    (fun r exp => rset r exp.paidBy ((rget r exp.paidBy).getD 0 + exp.amount))
    byParticipant

/-- Insert x in front of the first element y with le x y. Elements equal
under the comparator keep the earlier element first, as a stable sort does. -/
def insertLe {α : Type} (le : α → α → Bool) (x : α) : List α → List α
  | [] => [x]
  | y :: ys => if le x y then x :: y :: ys else y :: insertLe le x ys

/-- Stable insertion sort, modelling Array.prototype.sort with a numeric
comparator (stable per the ECMAScript specification). -/
def sortLe {α : Type} (le : α → α → Bool) : List α → List α
  | [] => []
  | x :: xs => insertLe le x (sortLe le xs)

/-- Sum of all values stored in a totals object: for the object built by
expensesByParticipant this equals totalTripCost (totalOf_expensesByParticipant),
so the solver's guard totalTripCost === 0 is faithfully totalOf totals = 0. -/
def totalOf (totals : List (String × ℚ)) : ℚ := (totals.map Prod.snd).sum

/-- App.tsx avgCost = totalTripCost / trip.participants.length. -/
def avgCostOf (totals : List (String × ℚ)) (participants : List Participant) : ℚ :=
  totalOf totals / (participants.length : ℚ)

/-- App.tsx balances: balances[p.name] = (expensesByParticipant[p.name] || 0) - avgCost. -/
def balancesOf (totals : List (String × ℚ)) (participants : List Participant) :
    List (String × ℚ) :=
  participants.foldl
    (fun r p => rset r p.name ((rget totals p.name).getD 0 - avgCostOf totals participants))
    []

/-- App.tsx debtors: balance entries with amt < -0.005, sorted ascending by
amount (comparator (a, b) => a[1] - b[1], stable). -/
def debtorsOf (totals : List (String × ℚ)) (participants : List Participant) :
    List (String × ℚ) :=
  sortLe (fun a b => decide (a.2 ≤ b.2))
    ((balancesOf totals participants).filter (fun e => decide (e.2 < -(0.005 : ℚ))))

/-- App.tsx creditors: balance entries with amt > 0.005, sorted descending by
amount (comparator (a, b) => b[1] - a[1], stable). -/
def creditorsOf (totals : List (String × ℚ)) (participants : List Participant) :
    List (String × ℚ) :=
  sortLe (fun a b => decide (b.2 ≤ a.2))
    ((balancesOf totals participants).filter (fun e => decide ((0.005 : ℚ) < e.2)))

/-- The greedy while loop of App.tsx settledPayments. The current debtor and
creditor (indices dIdx, cIdx into the sorted arrays) are the list heads and
advancing an index drops a head; mutating debtors[dIdx][1] in place becomes
rebuilding the head. Returns the payments pushed together with the number of
loop iterations executed. The fuel argument only bounds the iteration count:
settleGo_stable shows every fuel of at least debtors.length + creditors.length
yields the same result, so the fueled recursion reproduces the unbounded
while loop exactly. -/
def settleGo : ℕ → List (String × ℚ) → List (String × ℚ) → List SettledPayment × ℕ
  | 0, _, _ => ([], 0)
  | _ + 1, [], _ => ([], 0)
  | _ + 1, _ :: _, [] => ([], 0)
  | fuel + 1, d :: ds, c :: cs =>
    let transfer := min (-d.2) c.2
    let pays := if (0.005 : ℚ) < transfer then [SettledPayment.mk d.1 c.1 transfer] else []
    let d2 := d.2 + transfer
    let c2 := c.2 - transfer
    let ds2 := if |d2| < (0.005 : ℚ) then ds else (d.1, d2) :: ds
    let cs2 := if |c2| < (0.005 : ℚ) then cs else (c.1, c2) :: cs
    let rest := settleGo fuel ds2 cs2
    (pays ++ rest.1, rest.2 + 1)

/-- The settlement solver, the body of the App.tsx settledPayments useMemo
(the spec names it computeSettlement(totalsByParticipant, participants)):
guard clause, balances, epsilon-partition into debtors and creditors, greedy
matching loop. -/
def computeSettlement (totals : List (String × ℚ)) (participants : List Participant) :
    List SettledPayment :=
  if participants.length < 2 ∨ totalOf totals = 0 then []
  else
    let debtors := debtorsOf totals participants
    let creditors := creditorsOf totals participants
    (settleGo (debtors.length + creditors.length) debtors creditors).1

/-- App.tsx settledPayments as a function of the raw expense list: the solver
applied to the expensesByParticipant aggregate. -/
def settledPayments (expenses : List Expense) (participants : List Participant) :
    List SettledPayment :=
  computeSettlement (expensesByParticipant expenses participants) participants

/-- Sum of the amounts of the expenses whose paidBy is the given name. -/
def sumPaidBy (expenses : List Expense) (name : String) : ℚ :=
  ((expenses.filter (fun e => decide (e.paidBy = name))).map Expense.amount).sum

/-- Sum of the amounts of the expenses bearing the given category. -/
def sumInCategory (expenses : List Expense) (cat : ExpenseCategory) : ℚ :=
  ((expenses.filter (fun e => decide (e.category = cat))).map Expense.amount).sum

/-- Sum of the amounts of a list of settled payments. -/
def emittedSum (payments : List SettledPayment) : ℚ :=
  (payments.map SettledPayment.amount).sum

/-- Sum over the participants of max(0, balance[p]): the total credit owed. -/
def posOwedSum (totals : List (String × ℚ)) (participants : List Participant) : ℚ :=
  ((balancesOf totals participants).map (fun e => max 0 e.2)).sum

/-- Sum over the participants of balance[p] computed from the raw expense
list, balance[p] = totalsByParticipant[p] - totalTripCost / participantCount. -/
def balanceSum (expenses : List Expense) (participants : List Participant) : ℚ :=
  (participants.map
    (fun p => (rget (expensesByParticipant expenses participants) p.name).getD 0 -
      totalTripCost expenses / (participants.length : ℚ))).sum

/-! Helper lemmas about the object model (rget, rset, rkeys). -/

lemma rget_rset {κ : Type} [DecidableEq κ] (r : List (κ × ℚ)) (k q : κ) (v : ℚ) :
    rget (rset r k v) q = if k = q then some v else rget r q := by
  induction r with
  | nil => simp [rset, rget]
  | cons e r ih =>
    obtain ⟨k0, v0⟩ := e
    by_cases h1 : k0 = k
    · subst h1
      by_cases h2 : k0 = q
      · subst h2; simp [rset, rget]
      · simp [rset, rget, h2]
    · by_cases h2 : k0 = q
      · have hk : ¬ k = q := fun hh => h1 (h2.trans hh.symm)
        subst h2
        simp [rset, rget, h1, hk]
      · simp only [rset, if_neg h1, rget, if_neg h2, ih]

lemma mem_rkeys_iff {κ : Type} [DecidableEq κ] (r : List (κ × ℚ)) (q : κ) :
    q ∈ rkeys r ↔ (rget r q).isSome := by
  induction r with
  | nil => simp [rkeys, rget]
  | cons e r ih =>
    obtain ⟨k0, v0⟩ := e
    by_cases h : k0 = q
    · subst h; simp [rkeys, rget]
    · have h' : ¬ q = k0 := fun hh => h hh.symm
      simp only [rkeys, List.map_cons, List.mem_cons] at ih ⊢
      rw [rget, if_neg h]
      simp [h', ih]

lemma fst_mem_rkeys {κ : Type} {r : List (κ × ℚ)} {e : κ × ℚ} (h : e ∈ r) :
    e.1 ∈ rkeys r :=
  List.mem_map_of_mem Prod.fst h

lemma mem_rkeys_rset {κ : Type} [DecidableEq κ] (r : List (κ × ℚ)) (k q : κ) (v : ℚ) :
    q ∈ rkeys (rset r k v) ↔ q ∈ rkeys r ∨ q = k := by
  induction r with
  | nil => simp [rset, rkeys]
  | cons e r ih =>
    obtain ⟨k0, v0⟩ := e
    simp only [rkeys] at ih ⊢
    by_cases h : k0 = k
    · subst h
      have hr : rset ((k0, v0) :: r) k0 v = (k0, v) :: r := by simp [rset]
      rw [hr]
      simp only [List.map_cons, List.mem_cons]
      tauto
    · simp only [rset, if_neg h, List.map_cons, List.mem_cons]
      tauto

lemma rkeys_rset_nodup {κ : Type} [DecidableEq κ] (r : List (κ × ℚ)) (k : κ) (v : ℚ)
    (h : (rkeys r).Nodup) : (rkeys (rset r k v)).Nodup := by
  induction r with
  | nil => simp [rset, rkeys]
  | cons e r ih =>
    obtain ⟨k0, v0⟩ := e
    simp only [rkeys, List.map_cons, List.nodup_cons] at h ⊢
    by_cases hk : k0 = k
    · subst hk
      have hr : rset ((k0, v0) :: r) k0 v = (k0, v) :: r := by simp [rset]
      rw [hr]
      simp only [List.map_cons, List.nodup_cons]
      exact h
    · simp only [rset, if_neg hk, List.map_cons, List.nodup_cons]
      constructor
      · intro hc
        have hc2 : k0 ∈ rkeys (rset r k v) := by simpa [rkeys] using hc
        rcases (mem_rkeys_rset r k k0 v).mp hc2 with hc3 | hc3
        · exact h.1 (by simpa [rkeys] using hc3)
        · exact hk hc3
      · have := ih h.2
        simpa [rkeys] using this

lemma value_eq_of_nodup {κ : Type} [DecidableEq κ] {r : List (κ × ℚ)} {q : κ} {v w : ℚ}
    (hn : (rkeys r).Nodup) (hv : (q, v) ∈ r) (hw : (q, w) ∈ r) : v = w := by
  induction r with
  | nil => simp at hv
  | cons e r ih =>
    obtain ⟨k0, v0⟩ := e
    simp only [rkeys, List.map_cons, List.nodup_cons] at hn
    rcases List.mem_cons.mp hv with hv1 | hv1 <;> rcases List.mem_cons.mp hw with hw1 | hw1
    · simp only [Prod.mk.injEq] at hv1 hw1
      rw [hv1.2, hw1.2]
    · exfalso
      simp only [Prod.mk.injEq] at hv1
      apply hn.1
      rw [← hv1.1]
      exact List.mem_map_of_mem Prod.fst hw1
    · exfalso
      simp only [Prod.mk.injEq] at hw1
      apply hn.1
      rw [← hw1.1]
      exact List.mem_map_of_mem Prod.fst hv1
    · exact ih hn.2 hv1 hw1

lemma mem_rset_snd {κ : Type} [DecidableEq κ] (r : List (κ × ℚ)) (k : κ) (v : ℚ) :
    ∀ e ∈ rset r k v, e.2 = v ∨ e ∈ r := by
  induction r with
  | nil => simp [rset]
  | cons e0 r ih =>
    obtain ⟨k0, v0⟩ := e0
    by_cases h : k0 = k
    · intro e he
      simp only [rset, if_pos h] at he
      rcases List.mem_cons.mp he with he1 | he1
      · left; rw [he1]
      · right; exact List.mem_cons_of_mem _ he1
    · intro e he
      simp only [rset, if_neg h] at he
      rcases List.mem_cons.mp he with he1 | he1
      · right; rw [he1]; exact List.mem_cons_self _ _
      · rcases ih e he1 with h2 | h2
        · left; exact h2
        · right; exact List.mem_cons_of_mem _ h2

lemma totalOf_rset (r : List (String × ℚ)) (k : String) (v : ℚ) :
    totalOf (rset r k v) = totalOf r - (rget r k).getD 0 + v := by
  induction r with
  | nil => simp [rset, rget, totalOf]
  | cons e r ih =>
    obtain ⟨k0, v0⟩ := e
    simp only [totalOf] at ih ⊢
    by_cases h : k0 = k
    · subst h
      simp [rset, rget]
      ring
    · simp only [rset, if_neg h, List.map_cons, List.sum_cons, ih, rget, if_neg h]
      ring

lemma foldl_rec {α β : Type} (f : β → α → β) (P : β → Prop)
    (hstep : ∀ b a, P b → P (f b a)) :
    ∀ (l : List α) (b : β), P b → P (l.foldl f b) := by
  intro l
  induction l with
  | nil => intro b hb; simpa using hb
  | cons x l ih => intro b hb; simpa using ih (f b x) (hstep b x hb)

/-! Characterizations of the fold-built objects. -/

lemma rget_setfold {α κ : Type} [DecidableEq κ] (key : α → κ) (g : κ → ℚ) :
    ∀ (l : List α) (r : List (κ × ℚ)) (q : κ),
      rget (l.foldl (fun r x => rset r (key x) (g (key x))) r) q =
        if q ∈ l.map key then some (g q) else rget r q := by
  intro l
  induction l with
  | nil => intro r q; simp
  | cons x l ih =>
    intro r q
    simp only [List.foldl_cons, List.map_cons, List.mem_cons]
    rw [ih]
    by_cases h1 : q ∈ l.map key
    · simp [h1]
    · by_cases h2 : q = key x
      · simp [h1, h2, rget_rset]
      · have h2' : ¬ key x = q := fun hh => h2 hh.symm
        simp [h1, h2, h2', rget_rset]

lemma rget_accum {κ : Type} [DecidableEq κ] (key : Expense → κ) :
    ∀ (es : List Expense) (r : List (κ × ℚ)) (q : κ),
      rget (es.foldl (fun r e => rset r (key e) ((rget r (key e)).getD 0 + e.amount)) r) q =
        if q ∈ rkeys r ∨ q ∈ es.map key
        then some ((rget r q).getD 0 +
          ((es.filter (fun e => decide (key e = q))).map Expense.amount).sum)
        else none := by
  intro es
  induction es with
  | nil =>
    intro r q
    by_cases h : q ∈ rkeys r
    · obtain ⟨v, hv⟩ := Option.isSome_iff_exists.mp ((mem_rkeys_iff r q).mp h)
      simp [h, hv]
    · have hs : rget r q = none := by
        cases hrg : rget r q with
        | none => rfl
        | some v => exact absurd ((mem_rkeys_iff r q).mpr (by simp [hrg])) h
      simp [h, hs]
  | cons e es ih =>
    intro r q
    simp only [List.foldl_cons]
    rw [ih]
    by_cases hk : key e = q
    · have hget : rget (rset r (key e) ((rget r (key e)).getD 0 + e.amount)) q =
          some ((rget r (key e)).getD 0 + e.amount) := by
        rw [rget_rset, if_pos hk]
      have hmem : q ∈ rkeys (rset r (key e) ((rget r (key e)).getD 0 + e.amount)) := by
        rw [mem_rkeys_rset]; right; exact hk.symm
      rw [if_pos (Or.inl hmem), if_pos (Or.inr (by simp [List.map_cons, hk.symm]))]
      rw [hget]
      simp only [Option.getD_some]
      rw [List.filter_cons_of_pos (by simp [hk])]
      simp only [List.map_cons, List.sum_cons, hk]
      ring_nf
    · have hk' : ¬ q = key e := fun hh => hk hh.symm
      have hget : rget (rset r (key e) ((rget r (key e)).getD 0 + e.amount)) q = rget r q := by
        rw [rget_rset, if_neg hk]
      rw [List.filter_cons_of_neg (by simp [hk])]
      simp only [mem_rkeys_rset, List.map_cons, List.mem_cons, hget, hk', false_or, or_false]

lemma foldl_add_amount : ∀ (es : List Expense) (b : ℚ),
    es.foldl (fun s e => s + e.amount) b = b + (es.map Expense.amount).sum := by
  intro es
  induction es with
  | nil => intro b; simp
  | cons e es ih => intro b; simp [ih, add_assoc]

lemma totalTripCost_eq (es : List Expense) :
    totalTripCost es = (es.map Expense.amount).sum := by
  simpa [totalTripCost] using foldl_add_amount es 0

lemma totalOf_zero (r : List (String × ℚ)) (h : ∀ e ∈ r, (e : String × ℚ).2 = 0) :
    totalOf r = 0 := by
  simp only [totalOf]
  apply List.sum_eq_zero
  intro x hx
  obtain ⟨e, he, hval⟩ := List.mem_map.mp hx
  rw [← hval]
  exact h e he

lemma totalOf_init (ps : List Participant) :
    totalOf (ps.foldl (fun r p => rset r p.name 0) []) = 0 := by
  apply totalOf_zero
  exact foldl_rec (fun r (p : Participant) => rset r p.name 0)
    (fun r => ∀ e ∈ r, e.2 = 0)
    (fun r p hp e he => by
      rcases mem_rset_snd r p.name 0 e he with h1 | h1
      · exact h1
      · exact hp e h1)
    ps [] (by intro e he; simp at he)

lemma totalOf_accum : ∀ (es : List Expense) (r : List (String × ℚ)),
    totalOf (es.foldl (fun r e => rset r e.paidBy ((rget r e.paidBy).getD 0 + e.amount)) r) =
      totalOf r + (es.map Expense.amount).sum := by
  intro es
  induction es with
  | nil => intro r; simp
  | cons e es ih =>
    intro r
    simp only [List.foldl_cons]
    rw [ih, totalOf_rset]
    simp only [List.map_cons, List.sum_cons]
    ring

lemma totalOf_expensesByParticipant (es : List Expense) (ps : List Participant) :
    totalOf (expensesByParticipant es ps) = totalTripCost es := by
  have h3 : totalOf (expensesByParticipant es ps) =
      totalOf (ps.foldl (fun r p => rset r p.name 0) []) + (es.map Expense.amount).sum :=
    totalOf_accum es (ps.foldl (fun r (p : Participant) => rset r p.name 0) [])
  rw [h3, totalOf_init, zero_add, totalTripCost_eq]

lemma rget_expensesByParticipant (es : List Expense) (ps : List Participant) (q : String) :
    rget (expensesByParticipant es ps) q =
      if q ∈ ps.map Participant.name ∨ q ∈ es.map Expense.paidBy
      then some (sumPaidBy es q) else none := by
  have hinit : rget (ps.foldl (fun r p => rset r p.name 0) []) q =
      if q ∈ ps.map Participant.name then some 0 else rget ([] : List (String × ℚ)) q :=
    rget_setfold Participant.name (fun _ => (0 : ℚ)) ps [] q
  have haccum : rget (expensesByParticipant es ps) q =
      if q ∈ rkeys (ps.foldl (fun r p => rset r p.name 0) []) ∨ q ∈ es.map Expense.paidBy
      then some ((rget (ps.foldl (fun r p => rset r p.name 0) []) q).getD 0 +
        ((es.filter (fun e => decide (e.paidBy = q))).map Expense.amount).sum)
      else none :=
    rget_accum Expense.paidBy es (ps.foldl (fun r (p : Participant) => rset r p.name 0) []) q
  have hmem : q ∈ rkeys (ps.foldl (fun r p => rset r p.name 0) []) ↔
      q ∈ ps.map Participant.name := by
    rw [mem_rkeys_iff]
    by_cases h : q ∈ ps.map Participant.name <;> simp [hinit, h, rget]
  have h0 : (rget (ps.foldl (fun r p => rset r p.name 0) []) q).getD 0 = 0 := by
    by_cases h : q ∈ ps.map Participant.name <;> simp [hinit, h, rget]
  rw [haccum, h0]
  simp only [hmem, zero_add, sumPaidBy]

lemma rget_expensesByCategory (es : List Expense) (cat : ExpenseCategory) :
    rget (expensesByCategory es) cat = some (sumInCategory es cat) := by
  have hcat : cat ∈ CATEGORIES.map id := by cases cat <;> decide
  have haccum : rget (expensesByCategory es) cat =
      if cat ∈ rkeys (CATEGORIES.foldl (fun r c => rset r c 0) []) ∨
          cat ∈ es.map Expense.category
      then some ((rget (CATEGORIES.foldl (fun r c => rset r c 0) []) cat).getD 0 +
        ((es.filter (fun e => decide (e.category = cat))).map Expense.amount).sum)
      else none :=
    rget_accum Expense.category es (CATEGORIES.foldl (fun r c => rset r c 0) []) cat
  have hzero : rget (CATEGORIES.foldl (fun r c => rset r c 0) []) cat = some 0 := by
    have hinit : rget (CATEGORIES.foldl (fun r c => rset r c 0) []) cat =
        if cat ∈ CATEGORIES.map id then some 0
        else rget ([] : List (ExpenseCategory × ℚ)) cat :=
      rget_setfold id (fun _ => (0 : ℚ)) CATEGORIES [] cat
    rw [hinit, if_pos hcat]
  have hmem : cat ∈ rkeys (CATEGORIES.foldl (fun r c => rset r c 0) []) := by
    rw [mem_rkeys_iff, hzero]; rfl
  rw [haccum, if_pos (Or.inl hmem), hzero]
  simp only [Option.getD_some, zero_add, sumInCategory]

lemma rget_balancesOf (totals : List (String × ℚ)) (ps : List Participant) (q : String) :
    rget (balancesOf totals ps) q =
      if q ∈ ps.map Participant.name
      then some ((rget totals q).getD 0 - avgCostOf totals ps) else none := by
  have h := rget_setfold Participant.name
    (fun n => (rget totals n).getD 0 - avgCostOf totals ps) ps [] q
  have h2 : rget (balancesOf totals ps) q =
      if q ∈ ps.map Participant.name
      then some ((rget totals q).getD 0 - avgCostOf totals ps) else rget ([] : List (String × ℚ)) q := h
  rw [h2]
  simp [rget]

lemma rkeys_balancesOf_nodup (totals : List (String × ℚ)) (ps : List Participant) :
    (rkeys (balancesOf totals ps)).Nodup := by
  have h := foldl_rec
    (fun r p => rset r p.name ((rget totals p.name).getD 0 - avgCostOf totals ps))
    (fun r => (rkeys r).Nodup)
    (fun r p hp => rkeys_rset_nodup r p.name _ hp) ps [] (by simp [rkeys])
  exact h

/-! Sorting and summation helpers. -/

lemma insertLe_perm {α : Type} (le : α → α → Bool) (x : α) (l : List α) :
    (insertLe le x l).Perm (x :: l) := by
  induction l with
  | nil => simp [insertLe]
  | cons y ys ih =>
    simp only [insertLe]
    split_ifs
    · exact List.Perm.refl _
    · exact (ih.cons y).trans (List.Perm.swap x y ys)

lemma sortLe_perm {α : Type} (le : α → α → Bool) (l : List α) :
    (sortLe le l).Perm l := by
  induction l with
  | nil => simp [sortLe]
  | cons x xs ih =>
    exact (insertLe_perm le x (sortLe le xs)).trans (ih.cons x)

lemma mem_sortLe {α : Type} {le : α → α → Bool} {x : α} {l : List α} :
    x ∈ sortLe le l ↔ x ∈ l :=
  (sortLe_perm le l).mem_iff

lemma sum_map_sub {α : Type} (l : List α) (f : α → ℚ) (c : ℚ) :
    (l.map (fun x => f x - c)).sum = (l.map f).sum - l.length * c := by
  induction l with
  | nil => simp
  | cons x l ih =>
    simp only [List.map_cons, List.sum_cons, ih, List.length_cons]
    push_cast
    ring

lemma sum_map_add {α : Type} (l : List α) (f g : α → ℚ) :
    (l.map (fun x => f x + g x)).sum = (l.map f).sum + (l.map g).sum := by
  induction l with
  | nil => simp
  | cons x l ih =>
    simp only [List.map_cons, List.sum_cons, ih]
    ring

lemma sum_ite_eq (names : List String) (x : String) (a : ℚ)
    (hn : names.Nodup) (hx : x ∈ names) :
    (names.map (fun n => if x = n then a else 0)).sum = a := by
  induction names with
  | nil => simp at hx
  | cons n ns ih =>
    simp only [List.nodup_cons] at hn
    rcases List.mem_cons.mp hx with h | h
    · subst h
      simp only [List.map_cons, List.sum_cons, if_pos rfl]
      have hz : (ns.map (fun m => if x = m then a else 0)).sum = 0 := by
        apply List.sum_eq_zero
        intro y hy
        obtain ⟨m, hm, hval⟩ := List.mem_map.mp hy
        rw [← hval, if_neg]
        intro hc
        rw [hc] at hn
        exact hn.1 hm
      rw [hz]
      simp
    · have hxn : ¬ x = n := by
        intro hc
        rw [hc] at h
        exact hn.1 h
      simp only [List.map_cons, List.sum_cons, if_neg hxn]
      rw [ih hn.2 h, zero_add]

lemma sumPaidBy_cons (e : Expense) (es : List Expense) (n : String) :
    sumPaidBy (e :: es) n = (if e.paidBy = n then e.amount else 0) + sumPaidBy es n := by
  by_cases h : e.paidBy = n <;> simp [sumPaidBy, List.filter_cons, h]

lemma sum_sumPaidBy : ∀ (es : List Expense) (names : List String), names.Nodup →
    (∀ e ∈ es, e.paidBy ∈ names) →
    (names.map (fun n => sumPaidBy es n)).sum = (es.map Expense.amount).sum := by
  intro es
  induction es with
  | nil => intro names _ _; simp [sumPaidBy]
  | cons e es ih =>
    intro names hn hmem
    simp only [sumPaidBy_cons]
    rw [sum_map_add, sum_ite_eq names e.paidBy e.amount hn (hmem e (List.mem_cons_self e es)),
      ih names hn (fun x hx => hmem x (List.mem_cons_of_mem e hx))]
    simp [List.map_cons]

lemma balanceSum_eq_zero (es : List Expense) (ps : List Participant)
    (hn : (ps.map Participant.name).Nodup)
    (hmem : ∀ e ∈ es, e.paidBy ∈ ps.map Participant.name) : balanceSum es ps = 0 := by
  by_cases hps : ps = []
  · simp [balanceSum, hps]
  · unfold balanceSum
    rw [sum_map_sub]
    have hρ : ps.map (fun p => (rget (expensesByParticipant es ps) p.name).getD 0) =
        ps.map (fun p => sumPaidBy es p.name) := by
      apply List.map_congr_left
      intro p hp
      rw [rget_expensesByParticipant]
      rw [if_pos (Or.inl (List.mem_map_of_mem Participant.name hp))]
      rfl
    rw [hρ]
    have hmm : ps.map (fun p => sumPaidBy es p.name) =
        (ps.map Participant.name).map (fun n => sumPaidBy es n) := by
      rw [List.map_map]
      rfl
    rw [hmm, sum_sumPaidBy es _ hn hmem, ← totalTripCost_eq]
    have hlen : ((ps.length : ℚ)) ≠ 0 := by
      have := List.length_pos.mpr hps
      positivity
    field_simp

/-! Lemmas about the greedy matching loop. -/

lemma settleGo_zero (ds cs : List (String × ℚ)) : settleGo 0 ds cs = ([], 0) := rfl

lemma settleGo_nil_left (fuel : ℕ) (cs : List (String × ℚ)) :
    settleGo fuel [] cs = ([], 0) := by
  cases fuel <;> rfl

lemma settleGo_nil_right (fuel : ℕ) (ds : List (String × ℚ)) :
    settleGo fuel ds [] = ([], 0) := by
  cases fuel with
  | zero => rfl
  | succ f => cases ds <;> rfl

lemma settleGo_cons (fuel : ℕ) (d c : String × ℚ) (ds cs : List (String × ℚ)) :
    settleGo (fuel + 1) (d :: ds) (c :: cs) =
      ((if (0.005 : ℚ) < min (-d.2) c.2
          then [SettledPayment.mk d.1 c.1 (min (-d.2) c.2)] else []) ++
        (settleGo fuel
          (if |d.2 + min (-d.2) c.2| < (0.005 : ℚ) then ds
            else (d.1, d.2 + min (-d.2) c.2) :: ds)
          (if |c.2 - min (-d.2) c.2| < (0.005 : ℚ) then cs
            else (c.1, c.2 - min (-d.2) c.2) :: cs)).1,
       (settleGo fuel
          (if |d.2 + min (-d.2) c.2| < (0.005 : ℚ) then ds
            else (d.1, d.2 + min (-d.2) c.2) :: ds)
          (if |c.2 - min (-d.2) c.2| < (0.005 : ℚ) then cs
            else (c.1, c.2 - min (-d.2) c.2) :: cs)).2 + 1) := rfl

lemma settleGo_cons_fst (fuel : ℕ) (d c : String × ℚ) (ds cs : List (String × ℚ)) :
    (settleGo (fuel + 1) (d :: ds) (c :: cs)).1 =
      (if (0.005 : ℚ) < min (-d.2) c.2
        then [SettledPayment.mk d.1 c.1 (min (-d.2) c.2)] else []) ++
      (settleGo fuel
        (if |d.2 + min (-d.2) c.2| < (0.005 : ℚ) then ds
          else (d.1, d.2 + min (-d.2) c.2) :: ds)
        (if |c.2 - min (-d.2) c.2| < (0.005 : ℚ) then cs
          else (c.1, c.2 - min (-d.2) c.2) :: cs)).1 := rfl

lemma settleGo_cons_snd (fuel : ℕ) (d c : String × ℚ) (ds cs : List (String × ℚ)) :
    (settleGo (fuel + 1) (d :: ds) (c :: cs)).2 =
      (settleGo fuel
        (if |d.2 + min (-d.2) c.2| < (0.005 : ℚ) then ds
          else (d.1, d.2 + min (-d.2) c.2) :: ds)
        (if |c.2 - min (-d.2) c.2| < (0.005 : ℚ) then cs
          else (c.1, c.2 - min (-d.2) c.2) :: cs)).2 + 1 := rfl

lemma settle_step_len (d c : String × ℚ) (ds cs : List (String × ℚ)) :
    (if |d.2 + min (-d.2) c.2| < (0.005 : ℚ) then ds
      else (d.1, d.2 + min (-d.2) c.2) :: ds).length +
    (if |c.2 - min (-d.2) c.2| < (0.005 : ℚ) then cs
      else (c.1, c.2 - min (-d.2) c.2) :: cs).length + 1
      ≤ (d :: ds).length + (c :: cs).length := by
  rcases min_cases (-d.2) c.2 with ⟨hmin, _⟩ | ⟨hmin, _⟩
  · rw [hmin]
    have hd : |d.2 + -d.2| < (0.005 : ℚ) := by
      have : d.2 + -d.2 = 0 := by ring
      rw [this, abs_zero]
      norm_num
    rw [if_pos hd]
    split_ifs <;> simp [List.length_cons] <;> omega
  · rw [hmin]
    have hcz : |c.2 - c.2| < (0.005 : ℚ) := by
      rw [sub_self, abs_zero]
      norm_num
    rw [if_pos hcz]
    split_ifs <;> simp [List.length_cons] <;> omega

lemma settleGo_stable : ∀ (f1 f2 : ℕ) (ds cs : List (String × ℚ)),
    ds.length + cs.length ≤ f1 → ds.length + cs.length ≤ f2 →
    settleGo f1 ds cs = settleGo f2 ds cs := by
  intro f1
  induction f1 with
  | zero =>
    intro f2 ds cs h1 _
    have hds : ds = [] := List.length_eq_zero.mp (by omega)
    subst hds
    rw [settleGo_nil_left, settleGo_nil_left]
  | succ f ih =>
    intro f2 ds cs h1 h2
    cases ds with
    | nil => rw [settleGo_nil_left, settleGo_nil_left]
    | cons d ds =>
      cases cs with
      | nil => rw [settleGo_nil_right, settleGo_nil_right]
      | cons c cs =>
        cases f2 with
        | zero => simp [List.length_cons] at h2
        | succ f2 =>
          rw [settleGo_cons, settleGo_cons]
          have hlen := settle_step_len d c ds cs
          simp only [List.length_cons] at h1 h2 hlen
          rw [ih f2 _ _ (by omega) (by omega)]

lemma settleGo_count : ∀ (fuel : ℕ) (ds cs : List (String × ℚ)),
    ds.length + cs.length ≤ fuel →
    (settleGo fuel ds cs).2 ≤ ds.length + cs.length - 1 := by
  intro fuel
  induction fuel with
  | zero =>
    intro ds cs h
    rw [settleGo_zero]
    simp
  | succ f ih =>
    intro ds cs h
    cases ds with
    | nil => rw [settleGo_nil_left]; simp
    | cons d ds =>
      cases cs with
      | nil => rw [settleGo_nil_right]; simp
      | cons c cs =>
        rw [settleGo_cons_snd]
        have hlen := settle_step_len d c ds cs
        have hrec := ih
          (if |d.2 + min (-d.2) c.2| < (0.005 : ℚ) then ds
            else (d.1, d.2 + min (-d.2) c.2) :: ds)
          (if |c.2 - min (-d.2) c.2| < (0.005 : ℚ) then cs
            else (c.1, c.2 - min (-d.2) c.2) :: cs)
          (by simp only [List.length_cons] at h hlen ⊢; omega)
        simp only [List.length_cons] at h hlen hrec ⊢
        omega

lemma settleGo_amount_pos : ∀ (fuel : ℕ) (ds cs : List (String × ℚ))
    (sp : SettledPayment), sp ∈ (settleGo fuel ds cs).1 → (0.005 : ℚ) < sp.amount := by
  intro fuel
  induction fuel with
  | zero => intro ds cs sp h; rw [settleGo_zero] at h; simp at h
  | succ f ih =>
    intro ds cs sp h
    cases ds with
    | nil => rw [settleGo_nil_left] at h; simp at h
    | cons d ds =>
      cases cs with
      | nil => rw [settleGo_nil_right] at h; simp at h
      | cons c cs =>
        rw [settleGo_cons_fst] at h
        rcases List.mem_append.mp h with h1 | h1
        · by_cases hc : (0.005 : ℚ) < min (-d.2) c.2
          · rw [if_pos hc] at h1
            rcases List.mem_cons.mp h1 with h2 | h2
            · rw [h2]; exact hc
            · simp at h2
          · rw [if_neg hc] at h1
            simp at h1
        · exact ih _ _ sp h1

lemma settleGo_from_ne_to : ∀ (fuel : ℕ) (ds cs : List (String × ℚ)),
    (∀ n, n ∈ ds.map Prod.fst → n ∉ cs.map Prod.fst) →
    ∀ sp ∈ (settleGo fuel ds cs).1, sp.from_ ≠ sp.to_ := by
  intro fuel
  induction fuel with
  | zero => intro ds cs _ sp h; rw [settleGo_zero] at h; simp at h
  | succ f ih =>
    intro ds cs hdisj sp h
    cases ds with
    | nil => rw [settleGo_nil_left] at h; simp at h
    | cons d ds =>
      cases cs with
      | nil => rw [settleGo_nil_right] at h; simp at h
      | cons c cs =>
        rw [settleGo_cons_fst] at h
        rcases List.mem_append.mp h with h1 | h1
        · by_cases hc : (0.005 : ℚ) < min (-d.2) c.2
          · rw [if_pos hc] at h1
            rcases List.mem_cons.mp h1 with h2 | h2
            · rw [h2]
              intro hfe
              apply hdisj d.1 (by simp)
              simp only [List.map_cons, List.mem_cons]
              left
              exact hfe
            · simp at h2
          · rw [if_neg hc] at h1
            simp at h1
        · apply ih _ _ _ sp h1
          intro n hn hcn
          apply hdisj n
          · rcases (by assumption : n ∈ (if |d.2 + min (-d.2) c.2| < (0.005 : ℚ) then ds
                else (d.1, d.2 + min (-d.2) c.2) :: ds).map Prod.fst) with hx
            revert hx
            split_ifs with hsplit
            · intro hx
              simp only [List.map_cons, List.mem_cons]
              right
              exact hx
            · intro hx
              simp only [List.map_cons, List.mem_cons] at hx ⊢
              exact hx
          · revert hcn
            split_ifs with hsplit
            · intro hx
              simp only [List.map_cons, List.mem_cons]
              right
              exact hx
            · intro hx
              simp only [List.map_cons, List.mem_cons] at hx ⊢
              exact hx

lemma emittedSum_append (l1 l2 : List SettledPayment) :
    emittedSum (l1 ++ l2) = emittedSum l1 + emittedSum l2 := by
  simp [emittedSum]

lemma settleGo_emitted_le : ∀ (fuel : ℕ) (ds cs : List (String × ℚ)),
    (∀ e ∈ ds, (e : String × ℚ).2 ≤ 0) → (∀ e ∈ cs, 0 ≤ (e : String × ℚ).2) →
    emittedSum (settleGo fuel ds cs).1 ≤ (cs.map Prod.snd).sum := by
  intro fuel
  induction fuel with
  | zero =>
    intro ds cs _ hc
    rw [settleGo_zero]
    simp only [emittedSum, List.map_nil, List.sum_nil]
    apply List.sum_nonneg
    intro x hx
    obtain ⟨e, he, hv⟩ := List.mem_map.mp hx
    rw [← hv]
    exact hc e he
  | succ f ih =>
    intro ds cs hd hc
    cases ds with
    | nil =>
      rw [settleGo_nil_left]
      simp only [emittedSum, List.map_nil, List.sum_nil]
      apply List.sum_nonneg
      intro x hx
      obtain ⟨e, he, hv⟩ := List.mem_map.mp hx
      rw [← hv]
      exact hc e he
    | cons d ds =>
      cases cs with
      | nil =>
        rw [settleGo_nil_right]
        simp [emittedSum]
      | cons c cs =>
        rw [settleGo_cons_fst, emittedSum_append]
        generalize ht : min (-d.2) c.2 = t
        have hd0 : d.2 ≤ 0 := hd d (List.mem_cons_self _ _)
        have hc0 : 0 ≤ c.2 := hc c (List.mem_cons_self _ _)
        have htd : t ≤ -d.2 := by rw [← ht]; exact min_le_left _ _
        have htc : t ≤ c.2 := by rw [← ht]; exact min_le_right _ _
        have ht0 : 0 ≤ t := by
          rw [← ht]
          exact le_min (by linarith) hc0
        have hd2 : ∀ e ∈ (if |d.2 + t| < (0.005 : ℚ) then ds else (d.1, d.2 + t) :: ds),
            (e : String × ℚ).2 ≤ 0 := by
          split_ifs
          · intro e he
            exact hd e (List.mem_cons_of_mem _ he)
          · intro e he
            rcases List.mem_cons.mp he with h1 | h1
            · rw [h1]
              simp only []
              linarith
            · exact hd e (List.mem_cons_of_mem _ h1)
        have hc2 : ∀ e ∈ (if |c.2 - t| < (0.005 : ℚ) then cs else (c.1, c.2 - t) :: cs),
            0 ≤ (e : String × ℚ).2 := by
          split_ifs
          · intro e he
            exact hc e (List.mem_cons_of_mem _ he)
          · intro e he
            rcases List.mem_cons.mp he with h1 | h1
            · rw [h1]
              simp only []
              linarith
            · exact hc e (List.mem_cons_of_mem _ h1)
        have hrec := ih _ _ hd2 hc2
        have hpays : emittedSum (if (0.005 : ℚ) < t
            then [SettledPayment.mk d.1 c.1 t] else []) ≤ t := by
          split_ifs
          · simp [emittedSum]
          · simp only [emittedSum, List.map_nil, List.sum_nil]
            exact ht0
        have hsum : ((if |c.2 - t| < (0.005 : ℚ) then cs
            else (c.1, c.2 - t) :: cs).map Prod.snd).sum ≤ (cs.map Prod.snd).sum + (c.2 - t) := by
          split_ifs
          · linarith
          · simp only [List.map_cons, List.sum_cons]
            linarith
        simp only [List.map_cons, List.sum_cons]
        linarith

/-! Helpers connecting the solver to its partitions. -/

lemma computeSettlement_of_guard (totals : List (String × ℚ)) (ps : List Participant)
    (h : ps.length < 2 ∨ totalOf totals = 0) : computeSettlement totals ps = [] := by
  simp only [computeSettlement, if_pos h]

lemma computeSettlement_of_not_guard (totals : List (String × ℚ)) (ps : List Participant)
    (h : ¬(ps.length < 2 ∨ totalOf totals = 0)) :
    computeSettlement totals ps =
      (settleGo ((debtorsOf totals ps).length + (creditorsOf totals ps).length)
        (debtorsOf totals ps) (creditorsOf totals ps)).1 := by
  simp only [computeSettlement, if_neg h]

lemma mem_debtorsOf (totals : List (String × ℚ)) (ps : List Participant) (e : String × ℚ) :
    e ∈ debtorsOf totals ps ↔ e ∈ balancesOf totals ps ∧ e.2 < -(0.005 : ℚ) := by
  simp only [debtorsOf, mem_sortLe, List.mem_filter, decide_eq_true_eq]

lemma mem_creditorsOf (totals : List (String × ℚ)) (ps : List Participant) (e : String × ℚ) :
    e ∈ creditorsOf totals ps ↔ e ∈ balancesOf totals ps ∧ (0.005 : ℚ) < e.2 := by
  simp only [creditorsOf, mem_sortLe, List.mem_filter, decide_eq_true_eq]

lemma debtorsOf_nonpos (totals : List (String × ℚ)) (ps : List Participant) :
    ∀ e ∈ debtorsOf totals ps, (e : String × ℚ).2 ≤ 0 := by
  intro e he
  have h := ((mem_debtorsOf totals ps e).mp he).2
  linarith

lemma creditorsOf_nonneg (totals : List (String × ℚ)) (ps : List Participant) :
    ∀ e ∈ creditorsOf totals ps, 0 ≤ (e : String × ℚ).2 := by
  intro e he
  have h := ((mem_creditorsOf totals ps e).mp he).2
  linarith

lemma debtors_creditors_disjoint (totals : List (String × ℚ)) (ps : List Participant) :
    ∀ n, n ∈ (debtorsOf totals ps).map Prod.fst →
      n ∉ (creditorsOf totals ps).map Prod.fst := by
  intro n hd hc
  obtain ⟨⟨n1, v⟩, hd1, hd2⟩ := List.mem_map.mp hd
  obtain ⟨⟨n2, w⟩, hc1, hc2⟩ := List.mem_map.mp hc
  have hn1 : n1 = n := hd2
  have hn2 : n2 = n := hc2
  subst hn1
  subst hn2
  obtain ⟨hdb, hdlt⟩ := (mem_debtorsOf totals ps _).mp hd1
  obtain ⟨hcb, hcgt⟩ := (mem_creditorsOf totals ps _).mp hc1
  have hvw : v = w := value_eq_of_nodup (rkeys_balancesOf_nodup totals ps) hdb hcb
  simp only [] at hdlt hcgt
  rw [hvw] at hdlt
  linarith

lemma posOwedSum_nonneg (totals : List (String × ℚ)) (ps : List Participant) :
    0 ≤ posOwedSum totals ps := by
  simp only [posOwedSum]
  apply List.sum_nonneg
  intro x hx
  obtain ⟨e, _, hv⟩ := List.mem_map.mp hx
  rw [← hv]
  exact le_max_left _ _

lemma filter_pos_sum_le : ∀ (l : List (String × ℚ)),
    ((l.filter (fun e => decide ((0.005 : ℚ) < e.2))).map Prod.snd).sum ≤
      (l.map (fun e => max 0 e.2)).sum := by
  intro l
  induction l with
  | nil => simp
  | cons e l ih =>
    by_cases h : (0.005 : ℚ) < e.2
    · rw [List.filter_cons_of_pos (by simp [h])]
      simp only [List.map_cons, List.sum_cons]
      have hm : e.2 ≤ max 0 e.2 := le_max_right _ _
      linarith
    · rw [List.filter_cons_of_neg (by simp [h])]
      simp only [List.map_cons, List.sum_cons]
      have hm : (0 : ℚ) ≤ max 0 e.2 := le_max_left _ _
      linarith

lemma creditors_sum_le_posOwed (totals : List (String × ℚ)) (ps : List Participant) :
    ((creditorsOf totals ps).map Prod.snd).sum ≤ posOwedSum totals ps := by
  have hperm : (((creditorsOf totals ps).map Prod.snd)).Perm
      (((balancesOf totals ps).filter (fun e => decide ((0.005 : ℚ) < e.2))).map Prod.snd) :=
    (sortLe_perm _ _).map _
  rw [hperm.sum_eq]
  exact filter_pos_sum_le (balancesOf totals ps)

/-! Concrete inputs used by witnesses and counterexamples. -/

/-- Two participants A and B. -/
def psAB : List Participant := [⟨"A"⟩, ⟨"B"⟩]

/-- Three participants A, B and C. -/
def psABC : List Participant := [⟨"A"⟩, ⟨"B"⟩, ⟨"C"⟩]

/-- Four participants A, B, C and D. -/
def psABCD : List Participant := [⟨"A"⟩, ⟨"B"⟩, ⟨"C"⟩, ⟨"D"⟩]

/-- Totals object where only A paid, 100. -/
def totalsA100 : List (String × ℚ) := [("A", 100)]

/-- Totals object leaving sub-epsilon residual balances for three participants. -/
def totalsSmall : List (String × ℚ) := [("A", 0.012), ("B", 0.003)]

/-- Totals object whose run hits an exactly-epsilon candidate transfer. -/
def totalsEps : List (String × ℚ) := [("A", 0), ("B", 0.5), ("C", 2.005), ("D", 1.495)]

/-- A single expense paid by the unknown name X. -/
def expensesUnknown : List Expense :=
  [{ id := "e1", tripId := "t1", date := "2024-05-01", amount := 100,
     category := ExpenseCategory.comida, description := "cena", paidBy := "X" }]

/-- A single expense paid by the known participant A. -/
def expensesKnown : List Expense :=
  [{ id := "e2", tripId := "t1", date := "2024-05-02", amount := 100,
     category := ExpenseCategory.comida, description := "cena", paidBy := "A" }]

lemma computeSettlement_A100 :
    computeSettlement totalsA100 psAB = [SettledPayment.mk "B" "A" 50] := by
  simp [computeSettlement, debtorsOf, creditorsOf, balancesOf, avgCostOf, totalOf,
    rget, rset, totalsA100, psAB]
  norm_num [sortLe, insertLe, settleGo, min_def, abs_of_nonneg, abs_of_nonpos]

lemma debtorsOf_A100 : debtorsOf totalsA100 psAB = [("B", -50)] := by
  simp [debtorsOf, balancesOf, avgCostOf, totalOf, rget, rset, totalsA100, psAB]
  norm_num [sortLe, insertLe]

lemma creditorsOf_A100 : creditorsOf totalsA100 psAB = [("A", 50)] := by
  simp [creditorsOf, balancesOf, avgCostOf, totalOf, rget, rset, totalsA100, psAB]
  norm_num [sortLe, insertLe]

/-! Claim theorems. -/

/-- C3: computeSettlement returns the empty transfer list whenever the
participant count is below 2 or the total expense sum is zero. -/
theorem computeSettlement_guard_empty (totals : List (String × ℚ)) (ps : List Participant)
    (h : ps.length < 2 ∨ totalOf totals = 0) : computeSettlement totals ps = [] :=
  computeSettlement_of_guard totals ps h

/-- Witness for C3: a one-participant list yields an empty settlement. -/
theorem computeSettlement_guard_empty_witness :
    computeSettlement totalsA100 [⟨"A"⟩] = [] :=
  computeSettlement_guard_empty totalsA100 [⟨"A"⟩] (Or.inl (by simp))

/-- C8: expensesByCategory is total over the fixed category enumeration;
every category is present and maps to the sum of the amounts of the expenses
bearing it, zero (present, not absent) when no expense bears it. -/
theorem expensesByCategory_total (es : List Expense) (cat : ExpenseCategory) :
    rget (expensesByCategory es) cat = some (sumInCategory es cat) :=
  rget_expensesByCategory es cat

/-- C9: the key set of expensesByParticipant is exactly the union of the
participant names and the paidBy names of the expenses, and every key maps to
the sum of the amounts paid under that name; an unknown paidBy therefore
creates an entry of its own, so the domain can exceed the participant list. -/
theorem expensesByParticipant_domain (es : List Expense) (ps : List Participant)
    (q : String) :
    (q ∈ rkeys (expensesByParticipant es ps) ↔
      q ∈ ps.map Participant.name ∨ q ∈ es.map Expense.paidBy) ∧
    rget (expensesByParticipant es ps) q =
      (if q ∈ ps.map Participant.name ∨ q ∈ es.map Expense.paidBy
        then some (sumPaidBy es q) else none) := by
  constructor
  · rw [mem_rkeys_iff, rget_expensesByParticipant]
    by_cases h : q ∈ ps.map Participant.name ∨ q ∈ es.map Expense.paidBy <;> simp [h]
  · exact rget_expensesByParticipant es ps q

/-- C6: every emitted SettledPayment has amount strictly above 0.005. -/
theorem settlement_amount_positive (totals : List (String × ℚ)) (ps : List Participant)
    (sp : SettledPayment) (h : sp ∈ computeSettlement totals ps) :
    (0.005 : ℚ) < sp.amount := by
  by_cases hg : ps.length < 2 ∨ totalOf totals = 0
  · rw [computeSettlement_of_guard totals ps hg] at h
    simp at h
  · rw [computeSettlement_of_not_guard totals ps hg] at h
    exact settleGo_amount_pos _ _ _ sp h

/-- Witness for C6 on the two-participant run emitting one payment of 50. -/
theorem settlement_amount_positive_witness :
    (0.005 : ℚ) < (SettledPayment.mk "B" "A" 50).amount :=
  settlement_amount_positive totalsA100 psAB (SettledPayment.mk "B" "A" 50)
    (by rw [computeSettlement_A100]; exact List.mem_singleton.mpr rfl)

/-- C7: no emitted SettledPayment pays from a name to the same name; debtors
and creditors are drawn from disjoint parts of the balances object. -/
theorem settlement_no_self_payment (totals : List (String × ℚ)) (ps : List Participant)
    (sp : SettledPayment) (h : sp ∈ computeSettlement totals ps) :
    sp.from_ ≠ sp.to_ := by
  by_cases hg : ps.length < 2 ∨ totalOf totals = 0
  · rw [computeSettlement_of_guard totals ps hg] at h
    simp at h
  · rw [computeSettlement_of_not_guard totals ps hg] at h
    exact settleGo_from_ne_to _ _ _ (debtors_creditors_disjoint totals ps) sp h

/-- Witness for C7 on the two-participant run. -/
theorem settlement_no_self_payment_witness :
    (SettledPayment.mk "B" "A" 50).from_ ≠ (SettledPayment.mk "B" "A" 50).to_ :=
  settlement_no_self_payment totalsA100 psAB (SettledPayment.mk "B" "A" 50)
    (by rw [computeSettlement_A100]; exact List.mem_singleton.mpr rfl)

/-- C5: with fuel at least debtors.length + creditors.length the greedy loop
has already reached its fixed point (it terminates), and the number of
executed iterations is at most debtors.length + creditors.length - 1. -/
theorem settlement_loop_terminates_bound (totals : List (String × ℚ))
    (ps : List Participant) (fuel : ℕ)
    (hfuel : (debtorsOf totals ps).length + (creditorsOf totals ps).length ≤ fuel) :
    settleGo fuel (debtorsOf totals ps) (creditorsOf totals ps) =
      settleGo ((debtorsOf totals ps).length + (creditorsOf totals ps).length)
        (debtorsOf totals ps) (creditorsOf totals ps) ∧
    (settleGo fuel (debtorsOf totals ps) (creditorsOf totals ps)).2 ≤
      (debtorsOf totals ps).length + (creditorsOf totals ps).length - 1 :=
  ⟨settleGo_stable fuel ((debtorsOf totals ps).length + (creditorsOf totals ps).length)
      (debtorsOf totals ps) (creditorsOf totals ps) hfuel le_rfl,
   settleGo_count fuel (debtorsOf totals ps) (creditorsOf totals ps) hfuel⟩

/-- Witness for C5 with generous fuel on the two-participant run. -/
theorem settlement_loop_terminates_bound_witness :
    settleGo 5 (debtorsOf totalsA100 psAB) (creditorsOf totalsA100 psAB) =
      settleGo ((debtorsOf totalsA100 psAB).length + (creditorsOf totalsA100 psAB).length)
        (debtorsOf totalsA100 psAB) (creditorsOf totalsA100 psAB) ∧
    (settleGo 5 (debtorsOf totalsA100 psAB) (creditorsOf totalsA100 psAB)).2 ≤
      (debtorsOf totalsA100 psAB).length + (creditorsOf totalsA100 psAB).length - 1 :=
  settlement_loop_terminates_bound totalsA100 psAB 5
    (by rw [debtorsOf_A100, creditorsOf_A100]; simp)

/-- C1 amended: the emitted total never exceeds the total credit owed; it can
fall short (sub-epsilon balances and exactly-epsilon candidate transfers are
never emitted), so only this inequality holds in general. -/
theorem settlement_emitted_le_posOwed (totals : List (String × ℚ)) (ps : List Participant) :
    emittedSum (computeSettlement totals ps) ≤ posOwedSum totals ps := by
  by_cases hg : ps.length < 2 ∨ totalOf totals = 0
  · rw [computeSettlement_of_guard totals ps hg]
    have h0 : emittedSum [] = 0 := rfl
    rw [h0]
    exact posOwedSum_nonneg totals ps
  · rw [computeSettlement_of_not_guard totals ps hg]
    exact (settleGo_emitted_le _ _ _ (debtorsOf_nonpos totals ps)
      (creditorsOf_nonneg totals ps)).trans (creditors_sum_le_posOwed totals ps)

/-- C1 counterexample: a three-participant input meeting the preconditions
where the solver emits nothing although the total credit owed is 0.007, so the
emitted sum misses the owed sum by more than the 0.005 tolerance and the
(empty) transfers leave a nonzero balance. -/
theorem settlement_conservation_counterexample :
    computeSettlement totalsSmall psABC = [] ∧
    rget (balancesOf totalsSmall psABC) "A" = some (7 / 1000) ∧
    posOwedSum totalsSmall psABC = 7 / 1000 ∧
    ¬(|emittedSum (computeSettlement totalsSmall psABC) - posOwedSum totalsSmall psABC| ≤
        (0.005 : ℚ)) := by
  have hset : computeSettlement totalsSmall psABC = [] := by
    simp [computeSettlement, debtorsOf, creditorsOf, balancesOf, avgCostOf, totalOf,
      rget, rset, totalsSmall, psABC]
    norm_num [sortLe, insertLe, settleGo, min_def, abs_of_nonneg, abs_of_nonpos]
  have hbal : rget (balancesOf totalsSmall psABC) "A" = some (7 / 1000) := by
    simp [balancesOf, avgCostOf, totalOf, rget, rset, totalsSmall, psABC]
    norm_num
  have howed : posOwedSum totalsSmall psABC = 7 / 1000 := by
    simp [posOwedSum, balancesOf, avgCostOf, totalOf, rget, rset, totalsSmall, psABC]
    norm_num [max_def]
  refine ⟨hset, hbal, howed, ?_⟩
  rw [hset, howed]
  norm_num [emittedSum]
  rw [abs_of_nonneg (by norm_num : (0 : ℚ) ≤ 7 / 1000)]
  norm_num

/-- C2 amended: when the participant names are distinct and every expense's
payer is a listed participant, the sum of the balances is exactly zero, hence
within 0.005 times the participant count of zero. -/
theorem balanceSum_within_tolerance_of_known_payers (es : List Expense)
    (ps : List Participant) (hn : (ps.map Participant.name).Nodup)
    (hmem : ∀ e ∈ es, e.paidBy ∈ ps.map Participant.name) :
    |balanceSum es ps| ≤ (0.005 : ℚ) * ps.length := by
  rw [balanceSum_eq_zero es ps hn hmem, abs_zero]
  positivity

/-- Witness for the amended C2 on one expense paid by a listed participant. -/
theorem balanceSum_within_tolerance_witness :
    |balanceSum expensesKnown psAB| ≤ (0.005 : ℚ) * psAB.length :=
  balanceSum_within_tolerance_of_known_payers expensesKnown psAB
    (by simp [psAB])
    (by
      intro e he
      simp only [expensesKnown, List.mem_singleton] at he
      subst he
      simp [psAB])

/-- C2 counterexample: an expense paid by an unknown name makes the balance
sum -100, far outside the claimed epsilon-times-count tolerance. -/
theorem balanceSum_tolerance_counterexample :
    balanceSum expensesUnknown psAB = -100 ∧
    ¬(|balanceSum expensesUnknown psAB| ≤ (0.005 : ℚ) * psAB.length) := by
  have h : balanceSum expensesUnknown psAB = -100 := by
    simp [balanceSum, expensesUnknown, psAB, expensesByParticipant, totalTripCost,
      rget, rset]
    norm_num
  refine ⟨h, ?_⟩
  rw [h]
  norm_num [psAB]

/-- C4 counterexample: participant B is absent from the totals object yet the
solver emits the payment B to A of 50, so B is a debtor, not a zero-balance
bystander. -/
theorem absent_participant_counterexample :
    rget totalsA100 "B" = none ∧
    computeSettlement totalsA100 psAB = [SettledPayment.mk "B" "A" 50] ∧
    (SettledPayment.mk "B" "A" 50).from_ = "B" :=
  ⟨by simp [totalsA100, rget], computeSettlement_A100, rfl⟩

/-- C4 amended: a listed participant absent from the totals object is treated
as having paid zero, so its balance entry is 0 - avgCost (not zero), and with
a positive average it becomes a debtor. -/
theorem absent_participant_balance (totals : List (String × ℚ)) (ps : List Participant)
    (p : Participant) (hp : p ∈ ps) (habs : rget totals p.name = none) :
    rget (balancesOf totals ps) p.name = some (0 - avgCostOf totals ps) := by
  rw [rget_balancesOf, if_pos (List.mem_map_of_mem Participant.name hp), habs]
  rfl

/-- Witness for the amended C4: B absent from the totals gets balance 0 - avg. -/
theorem absent_participant_balance_witness :
    rget (balancesOf totalsA100 psAB) (Participant.mk "B").name =
      some (0 - avgCostOf totalsA100 psAB) :=
  absent_participant_balance totalsA100 psAB ⟨"B"⟩ (by simp [psAB])
    (by simp [totalsA100, rget])

/-- C10: a run in which the candidate transfer between B and the creditor C
equals exactly 0.005: no payment between them is emitted, the amounts are
still subtracted and C is advanced past, and the emitted sum 1.495 falls short
of the total positive balance 1.5 by exactly that un-emitted 0.005. -/
theorem exact_epsilon_transfer_not_emitted :
    computeSettlement totalsEps psABCD =
      [SettledPayment.mk "A" "C" 1, SettledPayment.mk "B" "D" (0.495 : ℚ)] ∧
    emittedSum (computeSettlement totalsEps psABCD) = 1.495 ∧
    posOwedSum totalsEps psABCD = 1.5 := by
  have hset : computeSettlement totalsEps psABCD =
      [SettledPayment.mk "A" "C" 1, SettledPayment.mk "B" "D" (0.495 : ℚ)] := by
    simp [computeSettlement, debtorsOf, creditorsOf, balancesOf, avgCostOf, totalOf,
      rget, rset, totalsEps, psABCD]
    norm_num [sortLe, insertLe, settleGo, min_def, abs_of_nonneg, abs_of_nonpos]
  refine ⟨hset, ?_, ?_⟩
  · rw [hset]
    norm_num [emittedSum]
  · simp [posOwedSum, balancesOf, avgCostOf, totalOf, rget, rset, totalsEps, psABCD]
    norm_num [max_def]

/-- Fidelity of the expense-level wrapper: the source's guard compares
totalTripCost with zero, and that agrees with the totals-object guard because
the totals object's values sum to totalTripCost. -/
lemma settledPayments_guard (es : List Expense) (ps : List Participant)
    (h : ps.length < 2 ∨ totalTripCost es = 0) : settledPayments es ps = [] := by
  apply computeSettlement_of_guard
  rcases h with h | h
  · exact Or.inl h
  · right
    rw [totalOf_expensesByParticipant]
    exact h
